import Mathlib

/-!
Verification development for the sialink subsystem of this repository.

Strings are modelled as lists of bytes (`List Nat`, each element < 256), which
matches the Go code: every operation in scope works on `[]byte` / ASCII
strings.  The repository's own source files embedded here are
`modules/renter/linkformat.go` (the superseded 45-byte `LinkData`, the
`fanoutStreamer`, and `linkfileEncodeFanout`) and the sialink test file
(package `modules`).  The bitfield codec and the 34-byte sialink codec of
package `modules` are exercised by the tests but their implementation file is
not part of the sources, so those two components are modelled from the
specification (see the doc comments marked `Modelled from the spec:`).
-/

namespace Siad

/-! ## Base64url (unpadded), as used by Go's `base64.RawURLEncoding` -/

/-- The base64url alphabet as a function from a 6-bit index to its ASCII code:
`A`-`Z`, `a`-`z`, `0`-`9`, `-`, `_`. -/
def b64Char (n : Nat) : Nat :=
  if n < 26 then 65 + n
  else if n < 52 then 97 + (n - 26)
  else if n < 62 then 48 + (n - 52)
  else if n = 62 then 45
  else 95

/-- Inverse alphabet lookup: maps an ASCII code to its 6-bit index, `none` for
codes outside the base64url alphabet. -/
def b64Index (c : Nat) : Option Nat :=
  if 65 ≤ c ∧ c ≤ 90 then some (c - 65)
  else if 97 ≤ c ∧ c ≤ 122 then some (c - 97 + 26)
  else if 48 ≤ c ∧ c ≤ 57 then some (c - 48 + 52)
  else if c = 45 then some 62
  else if c = 95 then some 63
  else none

/-- Unpadded base64url encoding of a byte list, 3 bytes to 4 characters with a
short final group, exactly as Go's `base64.RawURLEncoding` encoder emits it. -/
def encodeB64 : List Nat → List Nat
  | b0 :: b1 :: b2 :: rest =>
      b64Char (b0 / 4) :: b64Char (b0 % 4 * 16 + b1 / 16) ::
      b64Char (b1 % 16 * 4 + b2 / 64) :: b64Char (b2 % 64) :: encodeB64 rest
  | [b0, b1] => [b64Char (b0 / 4), b64Char (b0 % 4 * 16 + b1 / 16), b64Char (b1 % 16 * 4)]
  | [b0] => [b64Char (b0 / 4), b64Char (b0 % 4 * 16)]
  | [] => []

/-- Unpadded base64url decoding, 4 characters to 3 bytes with short final
groups of 3 or 2 characters; a final group of 1 character is malformed, as is
any character outside the alphabet.  Go's non-strict decoder ignores the
unused low bits of a short final group, and so does this model. -/
def decodeB64 : List Nat → Option (List Nat)
  | c0 :: c1 :: c2 :: c3 :: rest => do
      let i0 ← b64Index c0
      let i1 ← b64Index c1
      let i2 ← b64Index c2
      let i3 ← b64Index c3
      let tail ← decodeB64 rest
      pure ((i0 * 4 + i1 / 16) :: (i1 % 16 * 16 + i2 / 4) :: (i2 % 4 * 64 + i3) :: tail)
  | [c0, c1, c2] => do
      let i0 ← b64Index c0
      let i1 ← b64Index c1
      let i2 ← b64Index c2
      pure [i0 * 4 + i1 / 16, i1 % 16 * 16 + i2 / 4]
  | [c0, c1] => do
      let i0 ← b64Index c0
      let i1 ← b64Index c1
      pure [i0 * 4 + i1 / 16]
  | [_] => none
  | [] => some []

theorem b64Index_b64Char : ∀ n, n < 64 → b64Index (b64Char n) = some n := by
  decide

theorem b64Char_not_amp_not_question (n : Nat) :
    b64Char n ≠ 38 ∧ b64Char n ≠ 63 := by
  unfold b64Char
  split_ifs <;> omega

/-- Every byte list whose elements are genuine bytes round-trips through the
unpadded base64url codec. -/
theorem decodeB64_encodeB64 :
    ∀ bs : List Nat, (∀ b ∈ bs, b < 256) → decodeB64 (encodeB64 bs) = some bs := by
  intro bs
  induction bs using encodeB64.induct with
  | case1 b0 b1 b2 rest ih =>
      intro h
      have h0 : b0 < 256 := h b0 (by simp)
      have h1 : b1 < 256 := h b1 (by simp)
      have h2 : b2 < 256 := h b2 (by simp)
      have hrest : decodeB64 (encodeB64 rest) = some rest :=
        ih fun b hb => h b (by simp [hb])
      have l0 := b64Index_b64Char (b0 / 4) (by omega)
      have l1 := b64Index_b64Char (b0 % 4 * 16 + b1 / 16) (by omega)
      have l2 := b64Index_b64Char (b1 % 16 * 4 + b2 / 64) (by omega)
      have l3 := b64Index_b64Char (b2 % 64) (by omega)
      simp only [encodeB64, decodeB64, l0, l1, l2, l3, hrest,
        Option.bind_eq_bind, Option.some_bind]
      have e0 : b0 / 4 * 4 + (b0 % 4 * 16 + b1 / 16) / 16 = b0 := by omega
      have e1 : (b0 % 4 * 16 + b1 / 16) % 16 * 16 + (b1 % 16 * 4 + b2 / 64) / 4 = b1 := by
        omega
      have e2 : (b1 % 16 * 4 + b2 / 64) % 4 * 64 + b2 % 64 = b2 := by omega
      rw [e0, e1, e2]
      rfl
  | case2 b0 b1 =>
      intro h
      have h0 : b0 < 256 := h b0 (by simp)
      have h1 : b1 < 256 := h b1 (by simp)
      have l0 := b64Index_b64Char (b0 / 4) (by omega)
      have l1 := b64Index_b64Char (b0 % 4 * 16 + b1 / 16) (by omega)
      have l2 := b64Index_b64Char (b1 % 16 * 4) (by omega)
      simp only [encodeB64, decodeB64, l0, l1, l2,
        Option.bind_eq_bind, Option.some_bind]
      have e0 : b0 / 4 * 4 + (b0 % 4 * 16 + b1 / 16) / 16 = b0 := by omega
      have e1 : (b0 % 4 * 16 + b1 / 16) % 16 * 16 + b1 % 16 * 4 / 4 = b1 := by omega
      rw [e0, e1]
      rfl
  | case3 b0 =>
      intro h
      have h0 : b0 < 256 := h b0 (by simp)
      have l0 := b64Index_b64Char (b0 / 4) (by omega)
      have l1 := b64Index_b64Char (b0 % 4 * 16) (by omega)
      simp only [encodeB64, decodeB64, l0, l1,
        Option.bind_eq_bind, Option.some_bind]
      have e0 : b0 / 4 * 4 + b0 % 4 * 16 / 16 = b0 := by omega
      rw [e0]
      rfl
  | case4 =>
      intro _
      simp [encodeB64, decodeB64]

/-- Length of the unpadded base64url encoding: 4 characters for every 3 bytes,
with 2 or 3 characters for a trailing group of 1 or 2 bytes. -/
theorem encodeB64_length :
    ∀ bs : List Nat, (encodeB64 bs).length = (4 * bs.length + 2) / 3 := by
  intro bs
  induction bs using encodeB64.induct with
  | case1 b0 b1 b2 rest ih => simp [encodeB64, ih]; omega
  | case2 b0 b1 => simp [encodeB64]
  | case3 b0 => simp [encodeB64]
  | case4 => simp [encodeB64]

theorem encodeB64_mem_ne (bs : List Nat) :
    ∀ c ∈ encodeB64 bs, c ≠ 38 ∧ c ≠ 63 := by
  induction bs using encodeB64.induct with
  | case1 b0 b1 b2 rest ih =>
      simp only [encodeB64, List.mem_cons]
      rintro c (rfl | rfl | rfl | rfl | hc)
      · exact b64Char_not_amp_not_question _
      · exact b64Char_not_amp_not_question _
      · exact b64Char_not_amp_not_question _
      · exact b64Char_not_amp_not_question _
      · exact ih c hc
  | case2 b0 b1 =>
      simp only [encodeB64, List.mem_cons]
      rintro c (rfl | rfl | rfl | hc)
      · exact b64Char_not_amp_not_question _
      · exact b64Char_not_amp_not_question _
      · exact b64Char_not_amp_not_question _
      · simp at hc
  | case3 b0 =>
      simp only [encodeB64, List.mem_cons]
      rintro c (rfl | rfl | hc)
      · exact b64Char_not_amp_not_question _
      · exact b64Char_not_amp_not_question _
      · simp at hc
  | case4 => simp [encodeB64]

/-! ## Bitfield codec (spec §4.1)

The implementation file of the `modules` package's bitfield codec is not among
the sources; only its tests are.  The definitions below are modelled from the
spec, with one reconciliation forced by the test file: spec §3 says the low 3
bits of the bitfield hold `version - 1`, but the 13 remaining bits cannot
address the grid the tests exercise (mode 0 alone uses offset indices up to
1023, needing 10 offset bits plus 3 bucket bits plus a non-empty mode prefix),
and `TestSialinkManualExamples` demands `Version() = 1` for lengths beyond
32 KiB, where the claim's reading would corrupt the version.  The layout that
satisfies every test is: bits 0-1 hold `version - 1`, the unary mode prefix
(`m` one-bits then a zero terminator, spec §4.1's "unary-like prefixes" with
mode 0's distinguished one-bit prefix `0`) starts at bit 2, then 3 bucket
bits, then the offset index, which fills the 16-bit field exactly for every
mode. -/

/-- Sector size: 4 MiB. -/
def sectorSize : Nat := 2 ^ 22

/-- Modelled from the spec: §4.1, `offset_align = 2^(12+m)` (4 KiB at mode 0,
doubling each mode). -/
def offsetAlign (m : Nat) : Nat := 2 ^ (12 + m)

/-- Modelled from the spec: §4.1, `length_align`: 4 KiB at mode 0, `2^(11+m)`
for mode `m ≥ 1`. -/
def lengthAlign (m : Nat) : Nat := if m = 0 then 4096 else 2 ^ (11 + m)

/-- Modelled from the spec: §4.1, the shift added to decoded lengths: 0 at
mode 0, `2^(14+m)` for mode `m ≥ 1`, so each mode's band begins where the
previous one ends. -/
def modeShift (m : Nat) : Nat := if m = 0 then 0 else 2 ^ (14 + m)

/-- Decoded length of bucket `i` in mode `m`: `shift + length_align·(i+1)`. -/
def decodedLen (m i : Nat) : Nat := modeShift m + lengthAlign m * (i + 1)

/-- Largest length encodable in mode `m` (bucket 7). -/
def modeTop (m : Nat) : Nat := decodedLen m 7

/-- Modelled from the spec: §4.1 encoding rule step 1, the smallest mode whose
buckets reach the requested length, `none` when the length exceeds mode 7's
top (4 MiB). -/
def findMode (length : Nat) : Option Nat :=
  if length ≤ modeTop 0 then some 0
  else if length ≤ modeTop 1 then some 1
  else if length ≤ modeTop 2 then some 2
  else if length ≤ modeTop 3 then some 3
  else if length ≤ modeTop 4 then some 4
  else if length ≤ modeTop 5 then some 5
  else if length ≤ modeTop 6 then some 6
  else if length ≤ modeTop 7 then some 7
  else none

/-- Smallest bucket of mode `m` whose decoded length covers `length`; a length
of 0 (or any length at most `shift + length_align`) lands in bucket 0. -/
def bucketIndex (m length : Nat) : Nat :=
  (max (length - modeShift m) 1 + (lengthAlign m - 1)) / lengthAlign m - 1

/-- The 16-bit bitfield holding version 1 (bits 0-1 zero), the unary mode
prefix (`m` one-bits, then a zero), bucket `i` (3 bits) and offset index `j`
(the remaining bits); the `% 65536` mirrors the Go `uint16`. -/
def packBitfield (m i j : Nat) : Nat :=
  (4 * (2 ^ m - 1) + 2 ^ (m + 3) * i + 2 ^ (m + 6) * j) % 65536

/-- Modelled from the spec: §4.1 encoding rule.  Picks the smallest mode and
bucket covering `length` (rounding the length up to the bucket's decoded
value), requires the offset to be aligned to the mode's `offset_align` and the
rounded range to lie inside the 4 MiB sector, and packs version 1, the unary
mode prefix, the bucket and the offset index into the 16-bit bitfield.
A length of 0 falls into mode 0 bucket 0 and is treated as 4 KiB, matching
`TestSialinkManualExamples` (which expects success also at nonzero offsets,
example `{4096*45, 0, 4096}`). -/
def setOffsetAndLen (offset length : Nat) : Except String Nat :=
  match findMode length with
  | none => .error "length too large"
  | some m =>
    if offset % offsetAlign m ≠ 0 then .error "offset is not aligned"
    else if sectorSize < offset + decodedLen m (bucketIndex m length) then
      .error "offset out of range"
    else .ok (packBitfield m (bucketIndex m length) (offset / offsetAlign m))

/-- Number of consecutive one-bits at the bottom of `n`, with fuel (14 suffices
for a 14-bit payload). -/
def trailingOnes : Nat → Nat → Nat
  | 0, _ => 0
  | f + 1, n => if n % 2 = 1 then trailingOnes f (n / 2) + 1 else 0

/-- Modelled from the spec: §4.1 decoding rule.  Shifts out the two version
bits, reads the unary mode prefix, then the 3 bucket bits, then the offset
index, and returns `(offset_align·j, shift + length_align·(i+1))`. -/
def offsetAndLen (bitfield : Nat) : Nat × Nat :=
  let payload := bitfield / 4
  let m := trailingOnes 14 payload
  let rest := payload / 2 ^ (m + 1)
  (offsetAlign m * (rest / 8), decodedLen m (rest % 8))

/-- Modelled from the spec: §3, `Version()` reads the version bits of the
bitfield and reports them 1-based (the stored value is `version - 1`). -/
def bitfieldVersion (bitfield : Nat) : Nat := bitfield % 4 + 1

theorem trailingOnes_exact :
    ∀ m k f : Nat, m < f → trailingOnes f (2 ^ m - 1 + 2 ^ (m + 1) * k) = m := by
  intro m
  induction m with
  | zero =>
      intro k f hf
      match f, hf with
      | f' + 1, _ =>
        have h2 : 2 ^ 0 - 1 + 2 ^ (0 + 1) * k = 2 * k := by norm_num
        rw [h2]
        simp [trailingOnes, Nat.mul_mod_right]
  | succ m ih =>
      intro k f hf
      match f, hf with
      | f' + 1, hf =>
        have ha : 1 ≤ 2 ^ m := Nat.one_le_two_pow
        have e1 : 2 ^ (m + 1) = 2 * 2 ^ m := by rw [pow_succ]; ring
        have e2 : 2 ^ (m + 2) = 4 * 2 ^ m := by rw [pow_succ, pow_succ]; ring
        have h2 : 2 ^ (m + 1) - 1 + 2 ^ (m + 1 + 1) * k
            = 2 * (2 ^ m - 1 + 2 ^ (m + 1) * k) + 1 := by
          rw [show m + 1 + 1 = m + 2 from rfl, e1, e2]
          have hk : 4 * 2 ^ m * k = 2 * (2 * 2 ^ m * k) := by ring
          omega
        rw [h2]
        have hodd : (2 * (2 ^ m - 1 + 2 ^ (m + 1) * k) + 1) % 2 = 1 := by omega
        have hdiv : (2 * (2 ^ m - 1 + 2 ^ (m + 1) * k) + 1) / 2
            = 2 ^ m - 1 + 2 ^ (m + 1) * k := by omega
        simp only [trailingOnes, hodd, hdiv]
        rw [ih k f' (by omega)]
        simp

/-- Decoding a packed bitfield recovers mode, bucket and offset index exactly,
provided the packed value fits the 16-bit field. -/
theorem offsetAndLen_packBitfield (m i j : Nat) (hm : m < 14) (hi : i ≤ 7)
    (hb : 4 * (2 ^ m - 1) + 2 ^ (m + 3) * i + 2 ^ (m + 6) * j < 65536) :
    offsetAndLen (packBitfield m i j) = (offsetAlign m * j, decodedLen m i) := by
  have ha : 1 ≤ 2 ^ m := Nat.one_le_two_pow
  have e1 : 2 ^ (m + 1) = 2 * 2 ^ m := by rw [pow_succ]; ring
  have e3 : 2 ^ (m + 3) * i = 8 * (2 ^ m * i) := by rw [pow_add]; ring
  have e6 : 2 ^ (m + 6) * j = 64 * (2 ^ m * j) := by rw [pow_add]; ring
  have hpack : packBitfield m i j
      = 4 * (2 ^ m - 1) + 2 ^ (m + 3) * i + 2 ^ (m + 6) * j := by
    unfold packBitfield
    exact Nat.mod_eq_of_lt hb
  have hpay : packBitfield m i j / 4 = 2 ^ m - 1 + 2 ^ (m + 1) * (i + 8 * j) := by
    rw [hpack]
    have h3 : 2 ^ (m + 1) * (i + 8 * j) = 2 * (2 ^ m * i) + 16 * (2 ^ m * j) := by
      rw [e1]; ring
    omega
  have hto : trailingOnes 14 (packBitfield m i j / 4) = m := by
    rw [hpay]; exact trailingOnes_exact m (i + 8 * j) 14 hm
  have hrest : packBitfield m i j / 4 / 2 ^ (m + 1) = i + 8 * j := by
    rw [hpay, Nat.add_mul_div_left _ _ (Nat.pos_pow_of_pos _ (by norm_num)),
      Nat.div_eq_of_lt (by omega), Nat.zero_add]
  have hmod8 : (i + 8 * j) % 8 = i := by omega
  have hdiv8 : (i + 8 * j) / 8 = j := by omega
  simp only [offsetAndLen, hto, hrest, hmod8, hdiv8]

theorem lengthAlign_pos (m : Nat) : 0 < lengthAlign m := by
  unfold lengthAlign
  split_ifs <;> positivity

theorem decodedLen_mono_i (m i i' : Nat) (h : i ≤ i') :
    decodedLen m i ≤ decodedLen m i' := by
  unfold decodedLen
  exact Nat.add_le_add_left (Nat.mul_le_mul_left _ (by omega)) _

theorem decodedLen_le_modeTop (m i : Nat) (h : i ≤ 7) :
    decodedLen m i ≤ modeTop m :=
  decodedLen_mono_i m i 7 h

theorem modeTop_pow (m : Nat) : modeTop m = 2 ^ (15 + m) := by
  cases m with
  | zero => decide
  | succ n =>
      simp only [modeTop, decodedLen, modeShift, lengthAlign, Nat.succ_ne_zero,
        if_false]
      have e1 : 2 ^ (14 + (n + 1)) = 32768 * 2 ^ n := by
        rw [show 14 + (n + 1) = 15 + n by omega, pow_add]; norm_num
      have e2 : 2 ^ (11 + (n + 1)) = 4096 * 2 ^ n := by
        rw [show 11 + (n + 1) = 12 + n by omega, pow_add]; norm_num
      have e3 : 2 ^ (15 + (n + 1)) = 65536 * 2 ^ n := by
        rw [show 15 + (n + 1) = 16 + n by omega, pow_add]; norm_num
      rw [e1, e2, e3]
      ring

theorem modeShift_succ_eq_modeTop (m : Nat) : modeShift (m + 1) = modeTop m := by
  rw [modeTop_pow]
  simp only [modeShift, Nat.succ_ne_zero, if_false]
  congr 1
  omega

theorem modeShift_mono (m m' : Nat) (h : m ≤ m') : modeShift m ≤ modeShift m' := by
  unfold modeShift
  split_ifs with h1 h2
  · omega
  · exact Nat.zero_le _
  · omega
  · exact Nat.pow_le_pow_right (by norm_num) (by omega)

/-- Shape of a successful `setOffsetAndLen`: the mode comes from `findMode`,
the offset is aligned, the rounded range fits the sector, and the result is
the packed bitfield. -/
theorem setOffsetAndLen_ok (o l b : Nat) (h : setOffsetAndLen o l = .ok b) :
    ∃ m, findMode l = some m ∧ o % offsetAlign m = 0 ∧
      o + decodedLen m (bucketIndex m l) ≤ sectorSize ∧
      b = packBitfield m (bucketIndex m l) (o / offsetAlign m) := by
  unfold setOffsetAndLen at h
  split at h
  next => simp at h
  next m hfm =>
    split_ifs at h with h1 h2
    exact ⟨m, hfm, by omega, by omega, (Except.ok.inj h).symm⟩

/-- `findMode` picks the smallest of the eight modes that can cover the
requested length. -/
theorem findMode_some (l m : Nat) (hfm : findMode l = some m) :
    m < 8 ∧ l ≤ modeTop m ∧ ∀ m', m' < m → modeTop m' < l := by
  unfold findMode at hfm
  split_ifs at hfm with g0 g1 g2 g3 g4 g5 g6 g7
  all_goals
    injection hfm with hmeq
  all_goals
    subst hmeq
  all_goals
    exact ⟨by norm_num, by omega, fun m' hm' => by interval_cases m' <;> omega⟩

/-- Shared decode-side argument: once the mode is known to be the smallest
covering one, the packed bitfield decodes to the aligned offset and the bucket
value, the bucket value covers the length, and it is the minimum over the
whole grid of decoded lengths at least the requested length. -/
theorem roundtrip_of_mode (M o l : Nat) (hM : M < 8)
    (hprev : ∀ m', m' < M → modeTop m' < l)
    (hi7 : bucketIndex M l ≤ 7)
    (hround : l ≤ decodedLen M (bucketIndex M l))
    (hmins : ∀ i', l ≤ decodedLen M i' → bucketIndex M l ≤ i')
    (halign : offsetAlign M * (o / offsetAlign M) = o)
    (hjb : 4 * (2 ^ M - 1) + 2 ^ (M + 3) * bucketIndex M l
      + 2 ^ (M + 6) * (o / offsetAlign M) < 65536) :
    ∃ r, offsetAndLen (packBitfield M (bucketIndex M l) (o / offsetAlign M)) = (o, r) ∧
      l ≤ r ∧ (∃ m, m < 8 ∧ ∃ i, i < 8 ∧ r = decodedLen m i) ∧
      ∀ m i, m < 8 → i < 8 → l ≤ decodedLen m i → r ≤ decodedLen m i := by
  have hdec := offsetAndLen_packBitfield M (bucketIndex M l) (o / offsetAlign M)
    (by omega) hi7 hjb
  refine ⟨decodedLen M (bucketIndex M l), by rw [hdec, halign], hround,
    ⟨M, hM, bucketIndex M l, by omega, rfl⟩, ?_⟩
  intro m' i' hm' hi' hle
  rcases lt_trichotomy m' M with hc | hc | hc
  · have h1 := hprev m' hc
    have h2 := decodedLen_le_modeTop m' i' (by omega)
    omega
  · subst hc
    exact decodedLen_mono_i _ _ _ (hmins i' hle)
  · have h1 : decodedLen M (bucketIndex M l) ≤ modeTop M :=
      decodedLen_le_modeTop M _ hi7
    have h2 : modeTop M ≤ modeShift m' := by
      have h3 := modeShift_mono (M + 1) m' hc
      rw [modeShift_succ_eq_modeTop] at h3
      omega
    have h4 : modeShift m' ≤ decodedLen m' i' := by
      unfold decodedLen
      have h5 := lengthAlign_pos m'
      nlinarith
    omega

set_option maxHeartbeats 3000000 in
/-- Claim C1.  For every `(offset, length)` accepted by `setOffsetAndLen`
(the pairs legal under the tiered grid of spec §4.1), decoding the produced
bitfield with `offsetAndLen` returns the offset unchanged together with
`round_up(length)`: a decoded-length grid value `decodedLen m i`
(`m, i ∈ 0..7`) that is at least `length` and is the smallest such grid value.
In particular a length exactly on a bucket boundary stays in its bucket and a
length one byte past it moves to the next. -/
theorem setOffsetAndLen_offsetAndLen_roundtrip (o l b : Nat)
    (h : setOffsetAndLen o l = .ok b) :
    ∃ r, offsetAndLen b = (o, r) ∧ l ≤ r ∧
      (∃ m, m < 8 ∧ ∃ i, i < 8 ∧ r = decodedLen m i) ∧
      ∀ m i, m < 8 → i < 8 → l ≤ decodedLen m i → r ≤ decodedLen m i := by
  obtain ⟨m, hfm, hal, hr, hb⟩ := setOffsetAndLen_ok o l b h
  obtain ⟨hm8, hlt, hprev⟩ := findMode_some l m hfm
  subst hb
  interval_cases m
  · simp only [modeTop, decodedLen, modeShift, lengthAlign, sectorSize, bucketIndex,
      offsetAlign] at hlt hr hal
    norm_num at hlt hr hal
    refine roundtrip_of_mode _ o l (by norm_num) hprev ?_ ?_ ?_ ?_ ?_
    · simp only [bucketIndex, modeShift, lengthAlign]
      norm_num
      omega
    · simp only [decodedLen, bucketIndex, modeShift, lengthAlign]
      norm_num
      omega
    · intro i' hle
      simp only [decodedLen, modeShift, lengthAlign] at hle
      norm_num at hle
      simp only [bucketIndex, modeShift, lengthAlign]
      norm_num
      omega
    · simp only [offsetAlign]
      norm_num
      omega
    · simp only [bucketIndex, offsetAlign, modeShift, lengthAlign]
      norm_num
      omega
  · simp only [modeTop, decodedLen, modeShift, lengthAlign, sectorSize, bucketIndex,
      offsetAlign] at hlt hr hal
    norm_num at hlt hr hal
    refine roundtrip_of_mode _ o l (by norm_num) hprev ?_ ?_ ?_ ?_ ?_
    · simp only [bucketIndex, modeShift, lengthAlign]
      norm_num
      omega
    · simp only [decodedLen, bucketIndex, modeShift, lengthAlign]
      norm_num
      omega
    · intro i' hle
      simp only [decodedLen, modeShift, lengthAlign] at hle
      norm_num at hle
      simp only [bucketIndex, modeShift, lengthAlign]
      norm_num
      omega
    · simp only [offsetAlign]
      norm_num
      omega
    · simp only [bucketIndex, offsetAlign, modeShift, lengthAlign]
      norm_num
      omega
  · simp only [modeTop, decodedLen, modeShift, lengthAlign, sectorSize, bucketIndex,
      offsetAlign] at hlt hr hal
    norm_num at hlt hr hal
    refine roundtrip_of_mode _ o l (by norm_num) hprev ?_ ?_ ?_ ?_ ?_
    · simp only [bucketIndex, modeShift, lengthAlign]
      norm_num
      omega
    · simp only [decodedLen, bucketIndex, modeShift, lengthAlign]
      norm_num
      omega
    · intro i' hle
      simp only [decodedLen, modeShift, lengthAlign] at hle
      norm_num at hle
      simp only [bucketIndex, modeShift, lengthAlign]
      norm_num
      omega
    · simp only [offsetAlign]
      norm_num
      omega
    · simp only [bucketIndex, offsetAlign, modeShift, lengthAlign]
      norm_num
      omega
  · simp only [modeTop, decodedLen, modeShift, lengthAlign, sectorSize, bucketIndex,
      offsetAlign] at hlt hr hal
    norm_num at hlt hr hal
    refine roundtrip_of_mode _ o l (by norm_num) hprev ?_ ?_ ?_ ?_ ?_
    · simp only [bucketIndex, modeShift, lengthAlign]
      norm_num
      omega
    · simp only [decodedLen, bucketIndex, modeShift, lengthAlign]
      norm_num
      omega
    · intro i' hle
      simp only [decodedLen, modeShift, lengthAlign] at hle
      norm_num at hle
      simp only [bucketIndex, modeShift, lengthAlign]
      norm_num
      omega
    · simp only [offsetAlign]
      norm_num
      omega
    · simp only [bucketIndex, offsetAlign, modeShift, lengthAlign]
      norm_num
      omega
  · simp only [modeTop, decodedLen, modeShift, lengthAlign, sectorSize, bucketIndex,
      offsetAlign] at hlt hr hal
    norm_num at hlt hr hal
    refine roundtrip_of_mode _ o l (by norm_num) hprev ?_ ?_ ?_ ?_ ?_
    · simp only [bucketIndex, modeShift, lengthAlign]
      norm_num
      omega
    · simp only [decodedLen, bucketIndex, modeShift, lengthAlign]
      norm_num
      omega
    · intro i' hle
      simp only [decodedLen, modeShift, lengthAlign] at hle
      norm_num at hle
      simp only [bucketIndex, modeShift, lengthAlign]
      norm_num
      omega
    · simp only [offsetAlign]
      norm_num
      omega
    · simp only [bucketIndex, offsetAlign, modeShift, lengthAlign]
      norm_num
      omega
  · simp only [modeTop, decodedLen, modeShift, lengthAlign, sectorSize, bucketIndex,
      offsetAlign] at hlt hr hal
    norm_num at hlt hr hal
    refine roundtrip_of_mode _ o l (by norm_num) hprev ?_ ?_ ?_ ?_ ?_
    · simp only [bucketIndex, modeShift, lengthAlign]
      norm_num
      omega
    · simp only [decodedLen, bucketIndex, modeShift, lengthAlign]
      norm_num
      omega
    · intro i' hle
      simp only [decodedLen, modeShift, lengthAlign] at hle
      norm_num at hle
      simp only [bucketIndex, modeShift, lengthAlign]
      norm_num
      omega
    · simp only [offsetAlign]
      norm_num
      omega
    · simp only [bucketIndex, offsetAlign, modeShift, lengthAlign]
      norm_num
      omega
  · simp only [modeTop, decodedLen, modeShift, lengthAlign, sectorSize, bucketIndex,
      offsetAlign] at hlt hr hal
    norm_num at hlt hr hal
    refine roundtrip_of_mode _ o l (by norm_num) hprev ?_ ?_ ?_ ?_ ?_
    · simp only [bucketIndex, modeShift, lengthAlign]
      norm_num
      omega
    · simp only [decodedLen, bucketIndex, modeShift, lengthAlign]
      norm_num
      omega
    · intro i' hle
      simp only [decodedLen, modeShift, lengthAlign] at hle
      norm_num at hle
      simp only [bucketIndex, modeShift, lengthAlign]
      norm_num
      omega
    · simp only [offsetAlign]
      norm_num
      omega
    · simp only [bucketIndex, offsetAlign, modeShift, lengthAlign]
      norm_num
      omega
  · simp only [modeTop, decodedLen, modeShift, lengthAlign, sectorSize, bucketIndex,
      offsetAlign] at hlt hr hal
    norm_num at hlt hr hal
    refine roundtrip_of_mode _ o l (by norm_num) hprev ?_ ?_ ?_ ?_ ?_
    · simp only [bucketIndex, modeShift, lengthAlign]
      norm_num
      omega
    · simp only [decodedLen, bucketIndex, modeShift, lengthAlign]
      norm_num
      omega
    · intro i' hle
      simp only [decodedLen, modeShift, lengthAlign] at hle
      norm_num at hle
      simp only [bucketIndex, modeShift, lengthAlign]
      norm_num
      omega
    · simp only [offsetAlign]
      norm_num
      omega
    · simp only [bucketIndex, offsetAlign, modeShift, lengthAlign]
      norm_num
      omega

/-- Converse direction of `setOffsetAndLen_ok`: when the guards hold, the call
succeeds with the packed bitfield. -/
theorem setOffsetAndLen_eq_ok (o l m : Nat) (hfm : findMode l = some m)
    (h1 : o % offsetAlign m = 0)
    (h2 : o + decodedLen m (bucketIndex m l) ≤ sectorSize) :
    setOffsetAndLen o l
      = .ok (packBitfield m (bucketIndex m l) (o / offsetAlign m)) := by
  unfold setOffsetAndLen
  split
  next heq =>
    rw [hfm] at heq
    cases heq
  next m' heq =>
    rw [hfm] at heq
    injection heq with hm
    subst hm
    rw [if_neg (by omega), if_neg (by omega)]

/-- A packed bitfield always has its two version bits clear. -/
theorem packBitfield_mod4 (m i j : Nat) : packBitfield m i j % 4 = 0 := by
  unfold packBitfield
  have h3 : 2 ^ (m + 3) * i = 4 * (2 ^ (m + 1) * i) := by
    rw [show m + 3 = m + 1 + 2 by omega, pow_add]
    ring
  have h6 : 2 ^ (m + 6) * j = 4 * (2 ^ (m + 4) * j) := by
    rw [show m + 6 = m + 4 + 2 by omega, pow_add]
    ring
  have e : 4 * (2 ^ m - 1) + 2 ^ (m + 3) * i + 2 ^ (m + 6) * j
      = 4 * (2 ^ m - 1 + 2 ^ (m + 1) * i + 2 ^ (m + 4) * j) := by omega
  rw [e, show (65536 : Nat) = 4 * 16384 from rfl, Nat.mul_mod_mul_left]
  exact Nat.mul_mod_right 4 _

/-- Claim C9, amended.  Every bitfield produced by `setOffsetAndLen` has its
low 2 bits equal to `version - 1 = 0`, so `Version()` still reports 1; the
third-lowest bit belongs to the unary mode prefix, not to the version. -/
theorem setOffsetAndLen_version_bits (o l b : Nat)
    (h : setOffsetAndLen o l = .ok b) :
    b % 4 = 0 ∧ bitfieldVersion b = 1 := by
  obtain ⟨m, _, _, _, hb⟩ := setOffsetAndLen_ok o l b h
  subst hb
  refine ⟨packBitfield_mod4 m _ _, ?_⟩
  unfold bitfieldVersion
  rw [packBitfield_mod4 m _ _]

theorem setOffsetAndLen_version_bits_witness :
    72 % 4 = 0 ∧ bitfieldVersion 72 = 1 :=
  setOffsetAndLen_version_bits 4096 4097 72 rfl

/-- Claim C9, counterexample.  `SetOffsetAndLen(0, 33000)` lands in mode 1, so
the produced bitfield is 4: its low 3 bits are `100`, not `version - 1 = 0`,
even though `Version()` still returns 1 from the low 2 bits. -/
theorem setOffsetAndLen_low3_counterexample :
    setOffsetAndLen 0 33000 = .ok 4 ∧ 4 % 8 = 4 ∧ bitfieldVersion 4 = 1 := by
  refine ⟨rfl, by decide, by decide⟩

/-- Claim C5, amended.  A length of 0 is treated as 4 KiB at every offset that
is legal for a 4 KiB range (4 KiB-aligned and inside the sector), not only at
offset 0: `setOffsetAndLen` succeeds and the bitfield decodes to
`(offset, 4096)`; at offset 0 this gives `(0, 4096)`. -/
theorem setOffsetAndLen_zero_length (o : Nat) (h4 : o % 4096 = 0)
    (hs : o + 4096 ≤ sectorSize) :
    setOffsetAndLen o 0 = .ok (64 * (o / 4096)) ∧
      offsetAndLen (64 * (o / 4096)) = (o, 4096) := by
  have hsec : o + 4096 ≤ 4194304 := by
    have h := hs
    simp only [sectorSize] at h
    norm_num at h
    exact h
  have hj : o / 4096 ≤ 1023 := by omega
  have hfm : findMode 0 = some 0 := by decide
  have hbi : bucketIndex 0 0 = 0 := by decide
  have hoa : offsetAlign 0 = 4096 := by norm_num [offsetAlign]
  have hdl : decodedLen 0 0 = 4096 := by decide
  have hpack : packBitfield 0 0 (o / 4096) = 64 * (o / 4096) := by
    unfold packBitfield
    norm_num
    omega
  constructor
  · rw [setOffsetAndLen_eq_ok o 0 0 hfm (by rw [hoa]; exact h4) (by rw [hbi, hdl]; exact hs)]
    rw [hbi, hoa, hpack]
  · have hb := offsetAndLen_packBitfield 0 0 (o / 4096) (by norm_num) (by norm_num)
      (by norm_num; omega)
    rw [hpack] at hb
    rw [hb, hoa, hdl]
    simp only [Prod.mk.injEq]
    exact ⟨by omega, trivial⟩

theorem setOffsetAndLen_zero_length_witness :
    setOffsetAndLen 0 0 = .ok (64 * (0 / 4096)) ∧
      offsetAndLen (64 * (0 / 4096)) = (0, 4096) :=
  setOffsetAndLen_zero_length 0 (by decide) (by norm_num [sectorSize])

/-- Claim C5, counterexample.  `SetOffsetAndLen(4096*45, 0)` succeeds (the
test file expects exactly this in `TestSialinkManualExamples`), so length 0 is
not rejected with `ErrLengthZero` at nonzero offsets. -/
theorem setOffsetAndLen_zero_length_nonzero_offset :
    setOffsetAndLen (4096 * 45) 0 = .ok 2880 ∧ offsetAndLen 2880 = (4096 * 45, 4096) := by
  refine ⟨rfl, by decide⟩

theorem setOffsetAndLen_offsetAndLen_roundtrip_witness :
    ∃ r, offsetAndLen 72 = (4096, r) ∧ 4097 ≤ r ∧
      (∃ m, m < 8 ∧ ∃ i, i < 8 ∧ r = decodedLen m i) ∧
      ∀ m i, m < 8 → i < 8 → 4097 ≤ decodedLen m i → r ≤ decodedLen m i :=
  setOffsetAndLen_offsetAndLen_roundtrip 4096 4097 72 rfl

/-! ## Sialink link codec (spec §4.2)

Modelled from the spec: §4.2 and §6, reconciled with `TestSialink`.  The spec's
own figures are inconsistent (it says the raw tuple is bitfield plus root,
34 bytes, and in the same breath that the payload is 52 base64 characters;
34 bytes encode to 46 characters), while `TestSialink` pins the total:
`len(ld.Sialink()) == 52`, which is the 6-character `sia://` scheme plus 46
payload characters.  The model therefore serialises the 2-byte little-endian
bitfield followed by the 32-byte Merkle root, 34 raw bytes and 46 payload
characters.  Parsing strips the optional scheme, truncates at the first `&`
or `?`, requires exactly 46 characters, base64url-decodes, and rejects links
whose version bits do not denote version 1 (spec §6: "Unknown versions are
rejected"; this is also what makes `TestSialink`'s 46-character string of
`a`s fail to load). -/

/-- ASCII bytes of the literal scheme `sia://`. -/
def siaScheme : List Nat := [115, 105, 97, 58, 47, 47]

/-- Number of base64 characters in a sialink payload: 34 raw bytes encode to
46 unpadded base64url characters. -/
def encodedLinkDataSize : Nat := 46

/-- Modelled from the spec: §3, the `modules` package's `LinkData` — a 16-bit
bitfield and a 32-byte Merkle root (the 3 version bits of §3 are the low bits
of the bitfield, see the bitfield codec above). -/
structure LinkData where
  bitfield : Nat
  merkleRoot : List Nat
deriving DecidableEq

/-- Little-endian serialisation of a 16-bit value. -/
def le16 (n : Nat) : List Nat := [n % 256, n / 256 % 256]

/-- Modelled from the spec: §4.2 serialisation — concatenate the little-endian
bitfield and the Merkle root, base64url-encode without padding, prepend the
scheme. -/
def LinkData.sialink (ld : LinkData) : List Nat :=
  siaScheme ++ encodeB64 (le16 ld.bitfield ++ ld.merkleRoot)

/-- Strip one leading `sia://` scheme if present. -/
def dropScheme (s : List Nat) : List Nat :=
  if siaScheme.isPrefixOf s then s.drop 6 else s

/-- Truncate at the first `&` (38) or `?` (63): query parameters are tolerated
and ignored (spec §4.2). -/
def truncAtParams (s : List Nat) : List Nat :=
  s.takeWhile fun c => (c != 38) && (c != 63)

/-- Modelled from the spec: §4.2 parsing.  Strip the optional scheme, truncate
at the first `&` or `?`, require exactly 46 payload characters, base64url
decode, reject versions other than 1, and split the 34 raw bytes into the
little-endian bitfield and the Merkle root. -/
def LinkData.loadString (s : List Nat) : Except String LinkData :=
  let base := truncAtParams (dropScheme s)
  if base.length ≠ encodedLinkDataSize then
    .error "not a sialink, sialinks are always 46 bytes"
  else
    match decodeB64 base with
    | none => .error "unable to decode input as base64"
    | some raw =>
      if (raw.getD 0 0 + 256 * raw.getD 1 0) % 4 ≠ 0 then
        .error "unsupported sialink version"
      else .ok ⟨raw.getD 0 0 + 256 * raw.getD 1 0, (raw.drop 2).take 32⟩

/-- `LoadSialink` feeds the sialink text through `LoadString`. -/
def LinkData.loadSialink (s : List Nat) : Except String LinkData :=
  LinkData.loadString s

/-- `Version()` of a `LinkData` reads the version bits of its bitfield. -/
def LinkData.version (ld : LinkData) : Nat := bitfieldVersion ld.bitfield

/-- The all-zero `LinkData` of `TestSialink`. -/
def zeroLinkData : LinkData := ⟨0, List.replicate 32 0⟩

theorem truncAtParams_eq_self :
    ∀ x : List Nat, (∀ c ∈ x, c ≠ 38 ∧ c ≠ 63) → truncAtParams x = x := by
  intro x
  induction x with
  | nil => intro _; rfl
  | cons a t ih =>
      intro h
      have ha := h a (by simp)
      unfold truncAtParams
      rw [List.takeWhile_cons, if_pos (by simp [ha.1, ha.2])]
      have ht := ih fun c hc => h c (by simp [hc])
      unfold truncAtParams at ht
      rw [ht]

theorem truncAtParams_append_amp :
    ∀ x y : List Nat, (∀ c ∈ x, c ≠ 38 ∧ c ≠ 63) →
      truncAtParams (x ++ 38 :: y) = x := by
  intro x
  induction x with
  | nil =>
      intro y _
      unfold truncAtParams
      rw [List.nil_append, List.takeWhile_cons]
      norm_num
  | cons a t ih =>
      intro y h
      have ha := h a (by simp)
      unfold truncAtParams
      rw [List.cons_append, List.takeWhile_cons, if_pos (by simp [ha.1, ha.2])]
      have ht := ih y fun c hc => h c (by simp [hc])
      unfold truncAtParams at ht
      rw [ht]

theorem dropScheme_append (x : List Nat) : dropScheme (siaScheme ++ x) = x := by
  unfold dropScheme
  rw [if_pos (List.isPrefixOf_iff_prefix.mpr (List.prefix_append _ _))]
  rw [show (6 : Nat) = siaScheme.length from rfl, List.drop_left]

theorem payload_of_sialink (ld : LinkData) :
    truncAtParams (dropScheme (LinkData.sialink ld))
      = encodeB64 (le16 ld.bitfield ++ ld.merkleRoot) := by
  unfold LinkData.sialink
  rw [dropScheme_append]
  exact truncAtParams_eq_self _ (encodeB64_mem_ne _)

theorem payload_of_sialink_amp (ld : LinkData) (suffix : List Nat) :
    truncAtParams (dropScheme (LinkData.sialink ld ++ 38 :: suffix))
      = encodeB64 (le16 ld.bitfield ++ ld.merkleRoot) := by
  unfold LinkData.sialink
  rw [List.append_assoc, dropScheme_append]
  exact truncAtParams_append_amp _ _ (encodeB64_mem_ne _)

/-- Core parsing lemma: any input whose payload (after scheme stripping and
parameter truncation) is the serialisation of a well-formed version-1
`LinkData` parses back to exactly that `LinkData`. -/
theorem loadString_of_payload (ld : LinkData) (s : List Nat)
    (hv : ld.bitfield % 4 = 0) (hbf : ld.bitfield < 65536)
    (hroot : ld.merkleRoot.length = 32) (hbytes : ∀ b ∈ ld.merkleRoot, b < 256)
    (hpay : truncAtParams (dropScheme s)
      = encodeB64 (le16 ld.bitfield ++ ld.merkleRoot)) :
    LinkData.loadString s = .ok ld := by
  obtain ⟨bf, root⟩ := ld
  simp only at hv hbf hroot hbytes hpay
  have hraw : ∀ b ∈ le16 bf ++ root, b < 256 := by
    intro b hb
    rcases List.mem_append.mp hb with h | h
    · simp only [le16, List.mem_cons] at h
      rcases h with h | h | h
      · omega
      · omega
      · exact absurd h (List.not_mem_nil b)
    · exact hbytes b h
  have hlen34 : (le16 bf ++ root).length = 34 := by
    simp [le16, hroot]
  have henclen : (encodeB64 (le16 bf ++ root)).length = 46 := by
    rw [encodeB64_length, hlen34]
  have hdec := decodeB64_encodeB64 _ hraw
  unfold LinkData.loadString
  rw [hpay]
  rw [if_neg (by simp [encodedLinkDataSize, henclen])]
  split
  next heq =>
    rw [hdec] at heq
    cases heq
  next raw heq =>
    rw [hdec] at heq
    injection heq with hr
    subst hr
    have h0 : (le16 bf ++ root).getD 0 0 = bf % 256 := by simp [le16]
    have h1 : (le16 bf ++ root).getD 1 0 = bf / 256 % 256 := by simp [le16]
    have hbfval : (le16 bf ++ root).getD 0 0 + 256 * (le16 bf ++ root).getD 1 0 = bf := by
      rw [h0, h1]; omega
    rw [hbfval, if_neg (by omega)]
    have hdrop : (le16 bf ++ root).drop 2 = root := by simp [le16]
    rw [hdrop, ← hroot, List.take_length]

/-- Claim C3, amended.  For every version-1 `LinkData` with a well-formed
32-byte root and 16-bit bitfield, `LoadSialink` after `Sialink` reproduces the
`LinkData` field for field, and the serialised text is exactly 52 characters
(`sia://` plus 46 base64url characters), not 58. -/
theorem loadSialink_sialink_roundtrip (ld : LinkData)
    (hv : ld.bitfield % 4 = 0) (hbf : ld.bitfield < 65536)
    (hroot : ld.merkleRoot.length = 32)
    (hbytes : ∀ b ∈ ld.merkleRoot, b < 256) :
    LinkData.loadSialink (LinkData.sialink ld) = .ok ld ∧
      (LinkData.sialink ld).length = 52 := by
  constructor
  · exact loadString_of_payload ld _ hv hbf hroot hbytes (payload_of_sialink ld)
  · unfold LinkData.sialink
    rw [List.length_append, encodeB64_length]
    simp [le16, siaScheme, hroot]

theorem loadSialink_sialink_roundtrip_witness :
    LinkData.loadSialink (LinkData.sialink zeroLinkData) = .ok zeroLinkData ∧
      (LinkData.sialink zeroLinkData).length = 52 :=
  loadSialink_sialink_roundtrip zeroLinkData (by decide) (by decide) (by decide)
    (by decide)

/-- Claim C3, counterexample.  The sialink of the all-zero `LinkData` is 52
characters long, not the 58 the claim asserts. -/
theorem sialink_length_52_not_58 :
    (LinkData.sialink zeroLinkData).length = 52 ∧
      (LinkData.sialink zeroLinkData).length ≠ 58 := by
  refine ⟨by decide, by decide⟩

/-- Claim C6.  A sialink with a trailing `&`-suffix (which may itself contain
any further `&`-separated segments) parses successfully and to exactly the
same `LinkData` as the link without the suffix. -/
theorem loadString_amp_params (ld : LinkData) (suffix : List Nat)
    (hv : ld.bitfield % 4 = 0) (hbf : ld.bitfield < 65536)
    (hroot : ld.merkleRoot.length = 32)
    (hbytes : ∀ b ∈ ld.merkleRoot, b < 256) :
    LinkData.loadString (LinkData.sialink ld ++ 38 :: suffix) = .ok ld ∧
      LinkData.loadString (LinkData.sialink ld) = .ok ld := by
  constructor
  · exact loadString_of_payload ld _ hv hbf hroot hbytes
      (payload_of_sialink_amp ld suffix)
  · exact loadString_of_payload ld _ hv hbf hroot hbytes (payload_of_sialink ld)

theorem loadString_amp_params_witness :
    LinkData.loadString (LinkData.sialink zeroLinkData ++ 38 :: [102, 100, 115, 97])
      = .ok zeroLinkData ∧
      LinkData.loadString (LinkData.sialink zeroLinkData) = .ok zeroLinkData :=
  loadString_amp_params zeroLinkData [102, 100, 115, 97] (by decide) (by decide)
    (by decide) (by decide)

/-- Claim C7, amended.  `LoadString` fails for every input whose payload after
scheme stripping (and parameter truncation) is not exactly 46 characters — in
particular for payloads of 51 or 53 characters and for the empty string.  (The
claim's figure of 52 is the length of the whole link including `sia://`, not
of the payload.) -/
theorem loadString_wrong_length (s : List Nat)
    (h : (truncAtParams (dropScheme s)).length ≠ 46) :
    ∃ e, LinkData.loadString s = .error e := by
  unfold LinkData.loadString
  dsimp only
  split_ifs with hc
  · exact ⟨_, rfl⟩
  · simp only [encodedLinkDataSize] at hc
    exact absurd h hc

theorem loadString_wrong_length_witness :
    ∃ e, LinkData.loadString (List.replicate 51 97) = .error e :=
  loadString_wrong_length _ (by decide)

/-- Claim C7, counterexample.  The 46-character payload of the all-zero
sialink is not 52 characters long, yet `LoadString` accepts it — so "fails
whenever the payload is not exactly 52 characters" is false on the code. -/
theorem loadString_accepts_46_chars :
    LinkData.loadString (LinkData.sialink zeroLinkData) = .ok zeroLinkData ∧
      (truncAtParams (dropScheme (LinkData.sialink zeroLinkData))).length = 46 := by
  refine ⟨rfl, by decide⟩

/-! ## Fanout reconstruction (`newFanoutStreamer`, linkformat.go) -/

/-- `crypto.HashSize`. -/
def hashSize : Nat := 32

/-- `crypto.TypePlain`; cipher types are modelled as naturals with plain 0. -/
def typePlain : Nat := 0

/-- Possible outcomes of a Go computation: a run-time panic, an error return,
or a value. -/
inductive GoOutcome (α : Type) where
  | panics : GoOutcome α
  | fails : String → GoOutcome α
  | ok : α → GoOutcome α
deriving DecidableEq

/-- The fields of `linkfileLayout` that the fanout decoding reads. -/
structure LinkfileLayout where
  fanoutDataPieces : Nat
  fanoutParityPieces : Nat
  cipherType : Nat

/-- The fanout-decoding portion of `newFanoutStreamer` (linkformat.go lines
126-159), embedded with Go semantics.  In the compact case
(`fanoutDataPieces = 1` and plain cipher) the outer `piecesPerChunk = 1` and
`chunkRootsSize = 32`; the copy loop `for j := 0; j < len(chunk); j += 32`
runs exactly once per chunk (a chunk holds one hash) and
`chunk[j/chunkRootsSize] = chunk[0]` receives the 32 bytes at offset `i`, so
each chunk is the singleton list of its root.  In the general case the Go
source declares `piecesPerChunk :=` and `chunkRootsSize :=` with `:=` inside
the `else` block, shadowing the outer variables, which therefore remain 0:
the length check still uses the correct shadowed stride, but
`make([][]crypto.Hash, 0, uint64(len(fanoutBytes))/chunkRootsSize)` then
divides by the outer zero-valued `chunkRootsSize` — an integer division by
zero, which panics at run time.  (A zero shadowed stride would already make
the `%` itself panic; that point is unreachable through `newFanoutStreamer`
because `NewRSSubCode` rejects zero data pieces.)  The cipher-key and
erasure-coder construction preceding this portion involves external
collaborators and is orthogonal to the fanout blob. -/
def newFanoutChunks (ll : LinkfileLayout) (fanoutBytes : List Nat) :
    GoOutcome (List (List (List Nat))) :=
  if ll.fanoutDataPieces = 1 ∧ ll.cipherType = typePlain then
    if fanoutBytes.length % hashSize ≠ 0 then
      .fails "the fanout bytes are not a multiple of crypto.HashSize"
    else
      .ok ((List.range (fanoutBytes.length / hashSize)).map
        fun k => [(fanoutBytes.drop (hashSize * k)).take hashSize])
  else
    let chunkRootsSizeShadow := hashSize * (ll.fanoutDataPieces + ll.fanoutParityPieces)
    if chunkRootsSizeShadow = 0 then .panics
    else if fanoutBytes.length % chunkRootsSizeShadow ≠ 0 then
      .fails "the fanout bytes do not contain an even number of chunks"
    else .panics

/-- Claim C2, code-bug evidence.  A general-form layout (2 data pieces, 1
parity piece, non-plain cipher) with a 96-byte fanout blob — exactly one
chunk of three roots, a length the claim says must be accepted — makes
`newFanoutStreamer` divide by the zero-valued outer `chunkRootsSize` and
panic instead of building the chunk table; the compact path still works as
the claim describes, shown here on a 64-byte two-chunk blob. -/
theorem newFanoutChunks_general_panics :
    newFanoutChunks ⟨2, 1, 1⟩ (List.replicate 96 0) = .panics ∧
      newFanoutChunks ⟨1, 0, 0⟩ (List.replicate 64 0)
        = .ok [[List.replicate 32 0], [List.replicate 32 0]] := by
  refine ⟨by decide, by decide⟩

/-! ## Fanout encoding (`linkfileEncodeFanout`, linkformat.go) -/

/-- The all-zero hash, `var emptyHash crypto.Hash`. -/
def emptyHash : List Nat := List.replicate 32 0

/-- `findPieceInPieceSet`: the first non-empty Merkle root in a piece set, or
the empty hash when the set is empty or all-empty.  A piece is modelled by
its Merkle root. -/
def findPieceInPieceSet (pieceSet : List (List Nat)) : List Nat :=
  match pieceSet.find? (fun root => root != emptyHash) with
  | some root => root
  | none => emptyHash

/-- `linkfileEncodeFanout` (linkformat.go lines 239-296).  The file node is
abstracted to its cipher type, `MinPieces` (data pieces), number of chunks
and the per-chunk piece sets returned by `Pieces(i)` (assumed to succeed).
In the compact case (`dataPieces = 1` and plain cipher) the loop appends the
first non-empty root among the chunk's piece sets and `break`s — and appends
nothing at all when every piece set is empty.  In the general case it appends
one root (possibly the empty hash) per piece set. -/
def linkfileEncodeFanout (cipherType dataPieces numChunks : Nat)
    (pieces : Nat → List (List (List Nat))) : List Nat :=
  (List.range numChunks).flatMap fun i =>
    if dataPieces = 1 ∧ cipherType = typePlain then
      match (pieces i).find? (fun pieceSet => findPieceInPieceSet pieceSet != emptyHash) with
      | some pieceSet => findPieceInPieceSet pieceSet
      | none => []
    else
      (pieces i).flatMap fun pieceSet => findPieceInPieceSet pieceSet

/-- Claim C8, code-bug evidence.  A compact-form file node with one chunk
whose only piece set holds no non-empty root: the compact path appends no
bytes for the chunk, so the fanout is empty instead of the
`num_chunks x pieces_per_chunk x 32 = 32` bytes the claim (and spec §3)
require. -/
theorem linkfileEncodeFanout_drops_empty_chunk :
    linkfileEncodeFanout typePlain 1 1 (fun _ => [[emptyHash]]) = [] ∧
      (linkfileEncodeFanout typePlain 1 1 (fun _ => [[emptyHash]])).length ≠ 1 * 1 * 32 := by
  refine ⟨by decide, by decide⟩

/-! ## Streamer `ReadAt` (`fanoutStreamer.ReadAt`, linkformat.go) -/

/-- `fanoutStreamer.ReadAt` (linkformat.go lines 195-223).  The buffer `b` is
abstracted to its length `blen`; `fetch` stands for `managedFetchChunk`.  A
`.ok n` models the Go return `(n, nil)` with `n = copy(b, chunkData)`, i.e.
`min(len(b), len(chunkData))`; every error path returns 0 bytes.  The
`uint64` casts of the Go source are applied after the negativity check, which
the `Int.toNat` mirrors. -/
def fanoutStreamerReadAt (chunkSize filesize : Nat)
    (fetch : Nat → Except String (List Nat)) (blen : Nat) (offset : Int) :
    Except String Nat :=
  if offset < 0 then .error "cannot read from a negative offset"
  else if chunkSize < blen then .error "request needs to be no more than RequestSize()"
  else if offset.toNat % chunkSize ≠ 0 then
    .error "request needs to be aligned to RequestSize()"
  else if filesize < offset.toNat + blen then
    .error "making a read request that goes beyond the boundaries of the file"
  else
    match fetch (offset.toNat / chunkSize) with
    | .error e => .error ("unable to fetch chunk in ReadAt call on fanout streamer: " ++ e)
    | .ok chunkData => .ok (min blen chunkData.length)

/-- Claim C4.  Against a fetcher that delivers every chunk in full (`chunk
size` bytes, truncated to the file size on the last chunk), `ReadAt` returns
an error — and 0 bytes — exactly when the offset is negative, the buffer
exceeds the chunk size, the offset is not chunk-aligned, or the read goes
past the end of the file; otherwise it returns exactly `len(b)` bytes and no
error. -/
theorem fanoutStreamerReadAt_spec (cs fsz blen : Nat) (off : Int)
    (fetch : Nat → Except String (List Nat))
    (hfetch : ∀ i, ∃ d, fetch i = .ok d ∧ d.length = min cs (fsz - cs * i)) :
    ((off < 0 ∨ cs < blen ∨ off.toNat % cs ≠ 0 ∨ fsz < off.toNat + blen) →
        ∃ e, fanoutStreamerReadAt cs fsz fetch blen off = .error e) ∧
      (¬off < 0 → blen ≤ cs → off.toNat % cs = 0 → off.toNat + blen ≤ fsz →
        fanoutStreamerReadAt cs fsz fetch blen off = .ok blen) := by
  constructor
  · intro hcase
    unfold fanoutStreamerReadAt
    split_ifs with h1 h2 h3 h4
    · exact ⟨_, rfl⟩
    · exact ⟨_, rfl⟩
    · exact ⟨_, rfl⟩
    · exact ⟨_, rfl⟩
    · rcases hcase with hc | hc | hc | hc
      · exact absurd hc h1
      · exact absurd hc h2
      · exact absurd hc h3
      · exact absurd hc h4
  · intro h1 h2 h3 h4
    unfold fanoutStreamerReadAt
    rw [if_neg h1, if_neg (by omega), if_neg (by simp [h3]), if_neg (by omega)]
    obtain ⟨d, hd, hdl⟩ := hfetch (off.toNat / cs)
    have hmul : cs * (off.toNat / cs) = off.toNat :=
      Nat.mul_div_cancel' (Nat.dvd_of_mod_eq_zero h3)
    rw [hmul] at hdl
    simp only [hd]
    have hmin : min blen d.length = blen := by omega
    rw [hmin]

theorem fanoutStreamerReadAt_spec_witness :
    (((2 : Int) < 0 ∨ 2 < 2 ∨ (2 : Int).toNat % 2 ≠ 0 ∨ 4 < (2 : Int).toNat + 2 →
        ∃ e, fanoutStreamerReadAt 2 4
          (fun i => .ok (List.replicate (min 2 (4 - 2 * i)) 7)) 2 2 = .error e) ∧
      (¬(2 : Int) < 0 → 2 ≤ 2 → (2 : Int).toNat % 2 = 0 → (2 : Int).toNat + 2 ≤ 4 →
        fanoutStreamerReadAt 2 4
          (fun i => .ok (List.replicate (min 2 (4 - 2 * i)) 7)) 2 2 = .ok 2)) :=
  fanoutStreamerReadAt_spec 2 4 2 2 (fun i => .ok (List.replicate (min 2 (4 - 2 * i)) 7))
    (fun i => ⟨_, rfl, by simp⟩)

/-! ## The superseded 45-byte `LinkData` (linkformat.go lines 17-66) -/

/-- The `renter` package's `LinkData`: version, Merkle root, header size,
file size, data pieces, parity pieces.  Field widths (uint8 / 32 bytes /
uint16 / uint64 / uint8 / uint8) are carried as hypotheses where needed. -/
structure RenterLinkData where
  version : Nat
  merkleRoot : List Nat
  headerSize : Nat
  fileSize : Nat
  dataPieces : Nat
  parityPieces : Nat
deriving DecidableEq

/-- Little-endian serialisation of a 64-bit value. -/
def le64 (n : Nat) : List Nat :=
  [n % 256, n / 256 % 256, n / 256 ^ 2 % 256, n / 256 ^ 3 % 256,
   n / 256 ^ 4 % 256, n / 256 ^ 5 % 256, n / 256 ^ 6 % 256, n / 256 ^ 7 % 256]

/-- The 45-byte buffer `String` builds: version byte, 32-byte root,
little-endian header size (2 B), little-endian file size (8 B), data pieces,
parity pieces. -/
def RenterLinkData.toRaw (ld : RenterLinkData) : List Nat :=
  ld.version :: (ld.merkleRoot ++ (le16 ld.headerSize ++ (le64 ld.fileSize
    ++ [ld.dataPieces, ld.parityPieces])))

/-- `LinkData.String` of linkformat.go: base64url-encode the 45 raw bytes and
prepend `sia://`. -/
def RenterLinkData.string (ld : RenterLinkData) : List Nat :=
  siaScheme ++ encodeB64 ld.toRaw

/-- `LinkData.LoadString` of linkformat.go: trim an optional `sia://`, decode
the base64 into the zero-initialised 45-byte buffer (shorter decodes leave the
tail zero; a decode longer than 45 bytes overruns the buffer, a Go run-time
panic, modelled as a distinguished error), then extract the fields at their
fixed offsets. -/
def RenterLinkData.loadString (s : List Nat) : Except String RenterLinkData :=
  let base := dropScheme s
  match decodeB64 base with
  | none => .error "unable to decode input as base64"
  | some raw0 =>
    if 45 < raw0.length then
      .error "decoded data overruns the 45-byte buffer (Go run-time panic)"
    else
      let raw := raw0 ++ List.replicate (45 - raw0.length) 0
      .ok { version := raw.getD 0 0,
            merkleRoot := (raw.drop 1).take 32,
            headerSize := raw.getD 33 0 + 256 * raw.getD 34 0,
            fileSize := raw.getD 35 0 + 256 * raw.getD 36 0 + 256 ^ 2 * raw.getD 37 0
              + 256 ^ 3 * raw.getD 38 0 + 256 ^ 4 * raw.getD 39 0
              + 256 ^ 5 * raw.getD 40 0 + 256 ^ 6 * raw.getD 41 0
              + 256 ^ 7 * raw.getD 42 0,
            dataPieces := raw.getD 43 0,
            parityPieces := raw.getD 44 0 }

theorem b64Char_ne_58 (n : Nat) : b64Char n ≠ 58 := by
  unfold b64Char
  split_ifs <;> omega

theorem encodeB64_mem_exists (bs : List Nat) :
    ∀ c ∈ encodeB64 bs, ∃ n, c = b64Char n := by
  induction bs using encodeB64.induct with
  | case1 b0 b1 b2 rest ih =>
      simp only [encodeB64, List.mem_cons]
      rintro c (rfl | rfl | rfl | rfl | hc)
      · exact ⟨_, rfl⟩
      · exact ⟨_, rfl⟩
      · exact ⟨_, rfl⟩
      · exact ⟨_, rfl⟩
      · exact ih c hc
  | case2 b0 b1 =>
      simp only [encodeB64, List.mem_cons]
      rintro c (rfl | rfl | rfl | hc)
      · exact ⟨_, rfl⟩
      · exact ⟨_, rfl⟩
      · exact ⟨_, rfl⟩
      · simp at hc
  | case3 b0 =>
      simp only [encodeB64, List.mem_cons]
      rintro c (rfl | rfl | hc)
      · exact ⟨_, rfl⟩
      · exact ⟨_, rfl⟩
      · simp at hc
  | case4 => simp [encodeB64]

/-- A bare base64 payload never starts with the `sia://` scheme (the scheme
contains `:` = 58, which is not in the base64url alphabet), so `dropScheme`
leaves it unchanged. -/
theorem dropScheme_of_b64 (bs : List Nat) :
    dropScheme (encodeB64 bs) = encodeB64 bs := by
  unfold dropScheme
  rw [if_neg]
  intro hpre
  have hp := List.isPrefixOf_iff_prefix.mp hpre
  obtain ⟨t, ht⟩ := hp
  have h58 : (58 : Nat) ∈ encodeB64 bs := by
    rw [← ht]
    simp [siaScheme]
  obtain ⟨n, hn⟩ := encodeB64_mem_exists _ _ h58
  exact b64Char_ne_58 n hn.symm

theorem getD_append_length (l1 l2 : List Nat) (n : Nat) :
    (l1 ++ l2).getD (l1.length + n) 0 = l2.getD n 0 := by
  induction l1 with
  | nil => simp
  | cons a t ih =>
      rw [List.cons_append, List.length_cons]
      rw [show t.length + 1 + n = (t.length + n) + 1 by omega]
      simpa using ih

theorem getD_cons_append (v : Nat) (root tail : List Nat) (hroot : root.length = 32)
    (n : Nat) : (v :: (root ++ tail)).getD (33 + n) 0 = tail.getD n 0 := by
  rw [show 33 + n = (32 + n) + 1 by omega]
  have h1 : (v :: (root ++ tail)).getD ((32 + n) + 1) 0 = (root ++ tail).getD (32 + n) 0 := by
    simp
  rw [h1, show (32 : Nat) + n = root.length + n by omega]
  exact getD_append_length root tail n

/-- Core parsing lemma for the 45-byte form: any input that strips to the
base64 payload of a well-formed `RenterLinkData` loads back to exactly that
value. -/
theorem renterLoadString_of_base (v hs fs d p : Nat) (root : List Nat) (s : List Nat)
    (hv : v < 256) (hroot : root.length = 32) (hrb : ∀ b ∈ root, b < 256)
    (hh : hs < 65536) (hf : fs < 2 ^ 64) (hd : d < 256) (hp : p < 256)
    (hdrop : dropScheme s = encodeB64 (RenterLinkData.toRaw ⟨v, root, hs, fs, d, p⟩)) :
    RenterLinkData.loadString s = .ok ⟨v, root, hs, fs, d, p⟩ := by
  have hbytes : ∀ b ∈ RenterLinkData.toRaw ⟨v, root, hs, fs, d, p⟩, b < 256 := by
    intro b hb
    unfold RenterLinkData.toRaw at hb
    simp only [List.mem_cons, List.mem_append, le16, le64] at hb
    rcases hb with rfl | hb | hb
    · exact hv
    · exact hrb b hb
    · simp only [List.mem_cons, List.not_mem_nil, or_false] at hb
      omega
  have hlen45 : (RenterLinkData.toRaw ⟨v, root, hs, fs, d, p⟩).length = 45 := by
    unfold RenterLinkData.toRaw
    simp [le16, le64, hroot]
  have hdec := decodeB64_encodeB64 _ hbytes
  unfold RenterLinkData.loadString
  rw [hdrop]
  dsimp only
  split
  next heq =>
    rw [hdec] at heq
    cases heq
  next raw0 heq =>
    rw [hdec] at heq
    injection heq with hr
    subst hr
    rw [if_neg (by omega)]
    have hpad : RenterLinkData.toRaw ⟨v, root, hs, fs, d, p⟩
        ++ List.replicate (45 - (RenterLinkData.toRaw ⟨v, root, hs, fs, d, p⟩).length) 0
        = RenterLinkData.toRaw ⟨v, root, hs, fs, d, p⟩ := by
      rw [hlen45]
      simp
    rw [hpad]
    have e0 : (RenterLinkData.toRaw ⟨v, root, hs, fs, d, p⟩).getD 0 0 = v := rfl
    have eroot : ((RenterLinkData.toRaw ⟨v, root, hs, fs, d, p⟩).drop 1).take 32 = root := by
      show ((root ++ (le16 hs ++ (le64 fs ++ [d, p])))).take 32 = root
      rw [← hroot, List.take_left]
    have e33 : (RenterLinkData.toRaw ⟨v, root, hs, fs, d, p⟩).getD 33 0 = hs % 256 := by
      exact getD_cons_append v root (le16 hs ++ (le64 fs ++ [d, p])) hroot 0
    have e34 : (RenterLinkData.toRaw ⟨v, root, hs, fs, d, p⟩).getD 34 0 = hs / 256 % 256 := by
      exact getD_cons_append v root (le16 hs ++ (le64 fs ++ [d, p])) hroot 1
    have e35 : (RenterLinkData.toRaw ⟨v, root, hs, fs, d, p⟩).getD 35 0 = fs % 256 := by
      exact getD_cons_append v root (le16 hs ++ (le64 fs ++ [d, p])) hroot 2
    have e36 : (RenterLinkData.toRaw ⟨v, root, hs, fs, d, p⟩).getD 36 0 = fs / 256 % 256 := by
      exact getD_cons_append v root (le16 hs ++ (le64 fs ++ [d, p])) hroot 3
    have e37 : (RenterLinkData.toRaw ⟨v, root, hs, fs, d, p⟩).getD 37 0
        = fs / 256 ^ 2 % 256 := by
      exact getD_cons_append v root (le16 hs ++ (le64 fs ++ [d, p])) hroot 4
    have e38 : (RenterLinkData.toRaw ⟨v, root, hs, fs, d, p⟩).getD 38 0
        = fs / 256 ^ 3 % 256 := by
      exact getD_cons_append v root (le16 hs ++ (le64 fs ++ [d, p])) hroot 5
    have e39 : (RenterLinkData.toRaw ⟨v, root, hs, fs, d, p⟩).getD 39 0
        = fs / 256 ^ 4 % 256 := by
      exact getD_cons_append v root (le16 hs ++ (le64 fs ++ [d, p])) hroot 6
    have e40 : (RenterLinkData.toRaw ⟨v, root, hs, fs, d, p⟩).getD 40 0
        = fs / 256 ^ 5 % 256 := by
      exact getD_cons_append v root (le16 hs ++ (le64 fs ++ [d, p])) hroot 7
    have e41 : (RenterLinkData.toRaw ⟨v, root, hs, fs, d, p⟩).getD 41 0
        = fs / 256 ^ 6 % 256 := by
      exact getD_cons_append v root (le16 hs ++ (le64 fs ++ [d, p])) hroot 8
    have e42 : (RenterLinkData.toRaw ⟨v, root, hs, fs, d, p⟩).getD 42 0
        = fs / 256 ^ 7 % 256 := by
      exact getD_cons_append v root (le16 hs ++ (le64 fs ++ [d, p])) hroot 9
    have e43 : (RenterLinkData.toRaw ⟨v, root, hs, fs, d, p⟩).getD 43 0 = d := by
      exact getD_cons_append v root (le16 hs ++ (le64 fs ++ [d, p])) hroot 10
    have e44 : (RenterLinkData.toRaw ⟨v, root, hs, fs, d, p⟩).getD 44 0 = p := by
      exact getD_cons_append v root (le16 hs ++ (le64 fs ++ [d, p])) hroot 11
    rw [e0, eroot, e33, e34, e35, e36, e37, e38, e39, e40, e41, e42, e43, e44]
    simp only [Except.ok.injEq, RenterLinkData.mk.injEq, true_and, and_true]
    exact ⟨by omega, by omega⟩

/-- Claim C10.  For every well-formed value of the superseded 45-byte
`LinkData`, `LoadString` applied to the output of `String` reconstructs every
field exactly — both on the full `sia://`-prefixed output and on the bare
base64 payload with the prefix absent. -/
theorem renterLinkData_roundtrip (ld : RenterLinkData)
    (hv : ld.version < 256) (hroot : ld.merkleRoot.length = 32)
    (hrb : ∀ b ∈ ld.merkleRoot, b < 256) (hh : ld.headerSize < 65536)
    (hf : ld.fileSize < 2 ^ 64) (hd : ld.dataPieces < 256)
    (hp : ld.parityPieces < 256) :
    RenterLinkData.loadString (RenterLinkData.string ld) = .ok ld ∧
      RenterLinkData.loadString (encodeB64 (RenterLinkData.toRaw ld)) = .ok ld := by
  obtain ⟨v, root, hs, fs, d, p⟩ := ld
  simp only at hv hroot hrb hh hf hd hp
  constructor
  · refine renterLoadString_of_base v hs fs d p root _ hv hroot hrb hh hf hd hp ?_
    unfold RenterLinkData.string
    exact dropScheme_append _
  · refine renterLoadString_of_base v hs fs d p root _ hv hroot hrb hh hf hd hp ?_
    exact dropScheme_of_b64 _

theorem renterLinkData_roundtrip_witness :
    RenterLinkData.loadString (RenterLinkData.string ⟨1, List.replicate 32 0, 99, 4096, 10, 20⟩)
        = .ok ⟨1, List.replicate 32 0, 99, 4096, 10, 20⟩ ∧
      RenterLinkData.loadString
          (encodeB64 (RenterLinkData.toRaw ⟨1, List.replicate 32 0, 99, 4096, 10, 20⟩))
        = .ok ⟨1, List.replicate 32 0, 99, 4096, 10, 20⟩ :=
  renterLinkData_roundtrip ⟨1, List.replicate 32 0, 99, 4096, 10, 20⟩ (by decide)
    (by decide) (by decide) (by decide) (by norm_num) (by decide) (by decide)

end Siad
